import Mathlib

/- Verification of the forward-kinematics / Jacobian module (fk.py) of a
   7-DOF Franka Panda manipulator assignment.

   The embedding below models the numerical core of fk.py over exact reals:
   per-joint modified-DH transforms, the cumulative transform builder
   get_transform_to_base_from (including its inclusive-range flag handling),
   the Jacobian assembly (calc_Z, calc_P, construct_jacobian), the entry point
   your_fk with its length assertion and fixed -45 degree end-effector
   correction, and the scoring arithmetic of score_fk.

   List indexing in the Python source is modelled with Option-valued lookup
   (List.get?), so an out-of-range access surfaces as a none result. -/

open Matrix

/-- DH parameter record for one joint: link length a, link offset d,
    link twist alpha (fk.py, get_panda_DH_params). -/
structure DHParam where
  a : ℝ
  d : ℝ
  alpha : ℝ

/-- Per-joint homogeneous transform in the modified DH convention, exactly the
    4x4 matrix built at fk.py lines 63-66 (and repeated at lines 81-84) from
    the joint angle theta and the DH parameters of the joint. -/
noncomputable def dhMatrix (theta : ℝ) (p : DHParam) : Matrix (Fin 4) (Fin 4) ℝ :=
  !![Real.cos theta, -Real.sin theta, 0, p.a;
     Real.sin theta * Real.cos p.alpha, Real.cos theta * Real.cos p.alpha,
       -Real.sin p.alpha, -p.d * Real.sin p.alpha;
     Real.sin theta * Real.sin p.alpha, Real.cos theta * Real.sin p.alpha,
       Real.cos p.alpha, p.d * Real.cos p.alpha;
     0, 0, 0, 1]

/-- The accumulation loop of get_transform_to_base_from (fk.py lines 54-66):
    starting from the identity, right-multiply the per-joint transforms of
    joints 0 .. n-1 in order.  Indexing into the angle list and the DH table
    is Option-valued, mirroring Python list indexing that can go out of range. -/
noncomputable def loopProd (pose : List ℝ) (DH_params : List DHParam) :
    Nat → Option (Matrix (Fin 4) (Fin 4) ℝ)
  | 0 => some 1
  | n + 1 =>
    (loopProd pose DH_params n).bind fun T =>
      (pose.get? n).bind fun th =>
        (DH_params.get? n).map fun p => T * dhMatrix th p

/-- Embedding of get_transform_to_base_from (fk.py lines 43-86).  The flag
    use_inclusive_range is overwritten to true whenever level differs from
    len(DH_params) (lines 51-52); when the (possibly overwritten) flag is set,
    one extra per-joint transform, the one of joint number level, is
    right-multiplied after the loop (lines 68-84). -/
noncomputable def get_transform_to_base_from (level : Nat) (pose : List ℝ)
    (DH_params : List DHParam) (use_inclusive_range : Bool) :
    Option (Matrix (Fin 4) (Fin 4) ℝ) :=
  let incl := if level ≠ DH_params.length then true else use_inclusive_range
  (loopProd pose DH_params level).bind fun T =>
    if incl then
      (pose.get? level).bind fun th =>
        (DH_params.get? level).map fun p => T * dhMatrix th p
    else
      some T

/-- The top-left 3x3 rotation block of a 4x4 homogeneous transform
    (the [:3,:3] slices in fk.py). -/
def rotBlock (M : Matrix (Fin 4) (Fin 4) ℝ) : Matrix (Fin 3) (Fin 3) ℝ :=
  Matrix.of fun i j => M i.castSucc j.castSucc

/-- Vector cross product, the semantics of the cross helper (fk.py line 19,
    delegating to np.cross). -/
def cross (a b : Fin 3 → ℝ) : Fin 3 → ℝ :=
  ![a 1 * b 2 - a 2 * b 1, a 2 * b 0 - a 0 * b 2, a 0 * b 1 - a 1 * b 0]

/-- Embedding of calc_Z (fk.py lines 88-92): the rotation block of
    base_pose times the chain transform at the given level, applied to the
    unit z vector. -/
noncomputable def calc_Z (l : Nat) (q : List ℝ) (DH_params : List DHParam)
    (base_pose : Matrix (Fin 4) (Fin 4) ℝ) : Option (Fin 3 → ℝ) :=
  (get_transform_to_base_from l q DH_params false).map fun T =>
    (rotBlock (base_pose * T)).mulVec ![0, 0, 1]

/-- Embedding of calc_P (fk.py lines 94-107): the position of the end effector
    minus the position of the frame at the given level, both obtained by
    applying the homogeneous transforms to [0,0,0,1], keeping the first three
    components. -/
noncomputable def calc_P (l : Nat) (q : List ℝ) (n_joints : Nat)
    (DH_params : List DHParam) (base_pose : Matrix (Fin 4) (Fin 4) ℝ) :
    Option (Fin 3 → ℝ) :=
  (get_transform_to_base_from n_joints q DH_params false).bind fun TE =>
    (get_transform_to_base_from l q DH_params false).map fun Ti =>
      fun i : Fin 3 =>
        (base_pose * TE).mulVec ![0, 0, 0, 1] i.castSucc -
          (base_pose * Ti).mulVec ![0, 0, 0, 1] i.castSucc

/-- Vertical stacking of a linear 3-vector on top of an angular 3-vector into
    a 6-vector (the np.vstack at fk.py line 119). -/
def stack6 (lin ang : Fin 3 → ℝ) : Fin 6 → ℝ := fun r =>
  if h : (r : Nat) < 3 then lin ⟨r, h⟩ else ang ⟨(r : Nat) - 3, by omega⟩

/-- One column of the Jacobian as assembled in the loop body of
    construct_jacobian (fk.py lines 112-119): cross(Z, P) stacked on Z. -/
noncomputable def jacobianColumn (i : Nat) (q : List ℝ) (n_joints : Nat)
    (DH_params : List DHParam) (base_pose : Matrix (Fin 4) (Fin 4) ℝ) :
    Option (Fin 6 → ℝ) :=
  (calc_Z i q DH_params base_pose).bind fun Z =>
    (calc_P i q n_joints DH_params base_pose).map fun P =>
      stack6 (cross Z P) Z

/-- Collect a list of Option values into an Option of the list, failing as
    soon as one entry fails (the implicit exception propagation of the Python
    loop in construct_jacobian). -/
def collectSome {α : Type} : List (Option α) → Option (List α)
  | [] => some []
  | o :: rest => o.bind fun x => (collectSome rest).map fun xs => x :: xs

/-- Embedding of construct_jacobian (fk.py lines 109-121): the 6 x n_joints
    matrix whose column i is jacobianColumn i. -/
noncomputable def construct_jacobian (n_joints : Nat) (q : List ℝ)
    (DH_params : List DHParam) (base_pose : Matrix (Fin 4) (Fin 4) ℝ) :
    Option (Matrix (Fin 6) (Fin n_joints) ℝ) :=
  (collectSome ((List.range n_joints).map fun i =>
      jacobianColumn i q n_joints DH_params base_pose)).map fun cols =>
    Matrix.of fun r c => (cols.getD (c : Nat) (fun _ => 0)) r

/-- Modelled from the spec: get_matrix_from_pose (utils.bullet_utils, not under
    src/) converts a 7-component pose [x, y, z, qx, qy, qz, qw] (3D position
    plus quaternion) into the equivalent 4x4 homogeneous transform, per the
    data-model section of the spec; the rotation block is the standard
    quaternion-to-matrix formula and the translation column is the position. -/
def get_matrix_from_pose (pose : List ℝ) : Matrix (Fin 4) (Fin 4) ℝ :=
  let px := pose.getD 0 0
  let py := pose.getD 1 0
  let pz := pose.getD 2 0
  let qx := pose.getD 3 0
  let qy := pose.getD 4 0
  let qz := pose.getD 5 0
  let qw := pose.getD 6 0
  !![1 - 2*(qy^2 + qz^2), 2*(qx*qy - qz*qw), 2*(qx*qz + qy*qw), px;
     2*(qx*qy + qz*qw), 1 - 2*(qx^2 + qz^2), 2*(qy*qz - qx*qw), py;
     2*(qx*qz - qy*qw), 2*(qy*qz + qx*qw), 1 - 2*(qx^2 + qy^2), pz;
     0, 0, 0, 1]

/-- Modelled from the spec: get_pose_from_matrix (utils.bullet_utils, not under
    src/) converts a 4x4 homogeneous transform back to the 7-component pose
    (position then quaternion); modelled with the standard trace-based
    quaternion extraction, lossless up to quaternion sign per the spec. -/
noncomputable def get_pose_from_matrix (M : Matrix (Fin 4) (Fin 4) ℝ) : List ℝ :=
  let qw := Real.sqrt (1 + M 0 0 + M 1 1 + M 2 2) / 2
  let qx := (M 2 1 - M 1 2) / (4 * qw)
  let qy := (M 0 2 - M 2 0) / (4 * qw)
  let qz := (M 1 0 - M 0 1) / (4 * qw)
  [M 0 3, M 1 3, M 2 3, qx, qy, qz, qw]

/-- The constant rotation angle of the end-effector correction,
    -0.785398163397 radians (fk.py line 153). -/
noncomputable def adjustmentAngle : ℝ := -0.785398163397

/-- The 3x3 rotation matrix of the fixed correction,
    R.from_rotvec([0, 0, -0.785398163397]) at fk.py line 153: a rotation about
    the z axis by adjustmentAngle. -/
noncomputable def adjustmentMatrix : Matrix (Fin 3) (Fin 3) ℝ :=
  !![Real.cos adjustmentAngle, -Real.sin adjustmentAngle, 0;
     Real.sin adjustmentAngle, Real.cos adjustmentAngle, 0;
     0, 0, 1]

/-- The in-place update at fk.py line 154: the 3x3 rotation block of A is
    right-multiplied by the adjustment matrix, every other entry of A is left
    as it was. -/
noncomputable def applyZAdjustment (A : Matrix (Fin 4) (Fin 4) ℝ) :
    Matrix (Fin 4) (Fin 4) ℝ :=
  Matrix.of fun i j =>
    if h : (i : Nat) < 3 ∧ (j : Nat) < 3 then
      (rotBlock A * adjustmentMatrix) ⟨i, h.1⟩ ⟨j, h.2⟩
    else A i j

/-- Embedding of your_fk (fk.py lines 123-160).  The robot base position is
    an explicit 3-vector input; the 7-component base pose appends the identity
    quaternion [0,0,0,1] (line 127).  The assert at line 129 is modelled as a
    guard: on a dimension mismatch the function yields none before any
    transform or Jacobian computation.  Otherwise it composes the full chain
    (level 7, line 145), assembles the Jacobian from the uncorrected
    transforms (line 149, with n_joints = len(DH_params) = 7 under the
    assert), applies the fixed z-axis correction to the rotation block of A
    (lines 153-154) and converts A to a 7-component pose (line 158). -/
noncomputable def your_fk (base_position : Fin 3 → ℝ) (DH_params : List DHParam)
    (q : List ℝ) : Option (List ℝ × Matrix (Fin 6) (Fin 7) ℝ) :=
  let base_pose : List ℝ :=
    [base_position 0, base_position 1, base_position 2, 0, 0, 0, 1]
  if DH_params.length = 7 ∧ q.length = 7 then
    (get_transform_to_base_from 7 q DH_params false).bind fun T =>
      (construct_jacobian 7 q DH_params (get_matrix_from_pose base_pose)).map
        fun J =>
          (get_pose_from_matrix
              (applyZAdjustment (get_matrix_from_pose base_pose * T)), J)
  else
    none

/- ----------------------------------------------------------------------
   Scoring layer (score_fk, fk.py lines 165-242).  The file I/O and the
   floating-point comparisons against ground truth are external inputs; each
   test case is abstracted to the pair of Booleans (fk error exceeds
   FK_ERROR_THRESH, jacobian error exceeds JACOBIAN_ERROR_THRESH) that drives
   the two penalty branches at lines 210 and 217.
   ---------------------------------------------------------------------- -/

/-- FK_SCORE_MAX (fk.py line 15). -/
def FK_SCORE_MAX : ℝ := 10

/-- JACOBIAN_SCORE_MAX (fk.py line 13). -/
def JACOBIAN_SCORE_MAX : ℝ := 10

/-- TASK1_SCORE_MAX (fk.py line 17). -/
def TASK1_SCORE_MAX : ℝ := JACOBIAN_SCORE_MAX + FK_SCORE_MAX

/-- The lower clamp applied to each per-file score
    (fk.py lines 221-222: 0.0 if s < 0.0 else s). -/
noncomputable def clamp0 (x : ℝ) : ℝ := if x < 0 then 0 else x

/-- The per-case penalty (fk.py line 195). -/
noncomputable def penaltyOf (n_files cases_num : Nat) : ℝ :=
  (TASK1_SCORE_MAX / n_files) / (0.3 * cases_num)

/-- Per-file FK score: start from FK_SCORE_MAX / n_files (line 169), subtract
    the penalty for every case whose pose error exceeds the threshold
    (lines 210-211), clamp below at zero (line 221). -/
noncomputable def fileFkScore (n_files : Nat) (cases : List (Bool × Bool)) : ℝ :=
  clamp0 (cases.foldl
    (fun s c => if c.1 then s - penaltyOf n_files cases.length else s)
    (FK_SCORE_MAX / n_files))

/-- Per-file Jacobian score: same shape with JACOBIAN_SCORE_MAX and the
    jacobian-error flag (lines 171, 217-218, 222). -/
noncomputable def fileJacScore (n_files : Nat) (cases : List (Bool × Bool)) : ℝ :=
  clamp0 (cases.foldl
    (fun s c => if c.2 then s - penaltyOf n_files cases.length else s)
    (JACOBIAN_SCORE_MAX / n_files))

/-- The reported total score (fk.py lines 233-241): sum of the clamped
    per-file FK scores plus the sum of the clamped per-file Jacobian scores. -/
noncomputable def score_fk_total (files : List (List (Bool × Bool))) : ℝ :=
  ((files.map (fileFkScore files.length)).sum) +
    ((files.map (fileJacScore files.length)).sum)

/- ----------------------------------------------------------------------
   Reference products used to state the claims.
   ---------------------------------------------------------------------- -/

/-- The mathematical chain product: T_0 * T_1 * ... taken over the paired
    entries of an angle list and a DH table, starting from the identity. -/
noncomputable def chainProd : List ℝ → List DHParam → Matrix (Fin 4) (Fin 4) ℝ
  | th :: qs, p :: ps => dhMatrix th p * chainProd qs ps
  | _, _ => 1

/-- First three entries of the translation column of a homogeneous
    transform. -/
def pos3 (M : Matrix (Fin 4) (Fin 4) ℝ) : Fin 3 → ℝ := fun i => M i.castSucc 3

/-- The joint axis actually produced by the code for joint i: the z column of
    the rotation block of base_pose times the chain product of joints 0..i
    INCLUSIVE (i+1 per-joint transforms). -/
noncomputable def amendedZ (i : Nat) (q : List ℝ) (dh : List DHParam)
    (base : Matrix (Fin 4) (Fin 4) ℝ) : Fin 3 → ℝ :=
  (rotBlock (base * chainProd (q.take (i+1)) (dh.take (i+1)))).mulVec ![0, 0, 1]

/-- The lever arm actually produced by the code for joint i: end-effector
    position (n per-joint transforms) minus the position of the frame after
    joints 0..i inclusive. -/
noncomputable def amendedP (i n : Nat) (q : List ℝ) (dh : List DHParam)
    (base : Matrix (Fin 4) (Fin 4) ℝ) : Fin 3 → ℝ :=
  fun r => pos3 (base * chainProd (q.take n) (dh.take n)) r -
    pos3 (base * chainProd (q.take (i+1)) (dh.take (i+1))) r

/-- The Jacobian the code produces, in closed form: column i is
    cross(amendedZ i, amendedP i) stacked on amendedZ i. -/
noncomputable def jacobianFormula (n : Nat) (q : List ℝ) (dh : List DHParam)
    (base : Matrix (Fin 4) (Fin 4) ℝ) : Matrix (Fin 6) (Fin n) ℝ :=
  Matrix.of fun r c =>
    stack6 (cross (amendedZ (c : Nat) q dh base) (amendedP (c : Nat) n q dh base))
      (amendedZ (c : Nat) q dh base) r

/-- The joint axis as the words of the spec describe it for joint i: the z
    column of the rotation block of basePose times the transform composing
    ONLY joints 0..i-1 (i per-joint transforms, exclusive). -/
noncomputable def specZ (i : Nat) (q : List ℝ) (dh : List DHParam)
    (base : Matrix (Fin 4) (Fin 4) ℝ) : Fin 3 → ℝ :=
  (rotBlock (base * chainProd (q.take i) (dh.take i))).mulVec ![0, 0, 1]

/-- The lever arm as the words of the spec describe it for joint i, with the
    frame-i transform composing only joints 0..i-1. -/
noncomputable def specP (i n : Nat) (q : List ℝ) (dh : List DHParam)
    (base : Matrix (Fin 4) (Fin 4) ℝ) : Fin 3 → ℝ :=
  fun r => pos3 (base * chainProd (q.take n) (dh.take n)) r -
    pos3 (base * chainProd (q.take i) (dh.take i)) r

/-- Column i of the Jacobian as the words of the spec describe it:
    cross(specZ i, specP i) stacked on specZ i. -/
noncomputable def specJacobianColumn (i n : Nat) (q : List ℝ)
    (dh : List DHParam) (base : Matrix (Fin 4) (Fin 4) ℝ) : Fin 6 → ℝ :=
  stack6 (cross (specZ i q dh base) (specP i n q dh base)) (specZ i q dh base)

/- ----------------------------------------------------------------------
   Helper lemmas: the transform builder in closed form.
   ---------------------------------------------------------------------- -/

theorem chainProd_nil_left (dh : List DHParam) : chainProd [] dh = 1 := by
  cases dh <;> rfl

theorem chainProd_cons (th : ℝ) (qs : List ℝ) (p : DHParam) (ps : List DHParam) :
    chainProd (th :: qs) (p :: ps) = dhMatrix th p * chainProd qs ps := rfl

theorem chainProd_append (xs xs' : List ℝ) (ys ys' : List DHParam)
    (h : xs.length = ys.length) :
    chainProd (xs ++ xs') (ys ++ ys') = chainProd xs ys * chainProd xs' ys' := by
  induction xs generalizing ys with
  | nil =>
    cases ys with
    | nil => simp [chainProd_nil_left]
    | cons y yt => simp at h
  | cons x xt ih =>
    cases ys with
    | nil => simp at h
    | cons y yt =>
      simp only [List.cons_append, chainProd_cons]
      rw [ih yt (by simpa using h), Matrix.mul_assoc]

theorem take_succ_of_lt {α : Type} (l : List α) (n : Nat) (h : n < l.length) :
    l.take (n + 1) = l.take n ++ [l.get ⟨n, h⟩] := by
  rw [List.take_succ]
  simp [List.getElem?_eq_getElem h]

theorem chainProd_take_succ (q : List ℝ) (dh : List DHParam) (k : Nat)
    (hq : k < q.length) (hd : k < dh.length) :
    chainProd (q.take (k + 1)) (dh.take (k + 1)) =
      chainProd (q.take k) (dh.take k) * dhMatrix (q.get ⟨k, hq⟩) (dh.get ⟨k, hd⟩) := by
  rw [take_succ_of_lt q k hq, take_succ_of_lt dh k hd,
    chainProd_append _ _ _ _ (by simp [List.length_take]; omega),
    chainProd_cons, chainProd_nil_left, Matrix.mul_one]

theorem loopProd_eq (q : List ℝ) (dh : List DHParam) (k : Nat)
    (hq : k ≤ q.length) (hd : k ≤ dh.length) :
    loopProd q dh k = some (chainProd (q.take k) (dh.take k)) := by
  induction k with
  | zero => simp [loopProd, chainProd_nil_left]
  | succ n ih =>
    have hq' : n < q.length := by omega
    have hd' : n < dh.length := by omega
    rw [loopProd, ih (by omega) (by omega), List.get?_eq_get hq',
      List.get?_eq_get hd']
    simp [chainProd_take_succ q dh n hq' hd']

theorem loopProd_eq_none (q : List ℝ) (dh : List DHParam) (k : Nat)
    (h : q.length < k ∨ dh.length < k) : loopProd q dh k = none := by
  induction k with
  | zero => omega
  | succ n ih =>
    by_cases hn : q.length < n ∨ dh.length < n
    · rw [loopProd, ih hn]; rfl
    · push_neg at hn
      rcases h with h | h
      · have hq : q[n]? = none := by
          rw [← List.get?_eq_getElem?]; exact List.get?_eq_none.mpr (by omega)
        rw [loopProd]; cases loopProd q dh n <;> simp [List.get?_eq_getElem?, hq]
      · have hd : dh[n]? = none := by
          rw [← List.get?_eq_getElem?]; exact List.get?_eq_none.mpr (by omega)
        rw [loopProd]
        cases loopProd q dh n <;> cases hqn : q[n]? <;>
          simp [List.get?_eq_getElem?, hd, hqn]

/-- Key characterization: below the table length the builder composes
    level + 1 per-joint transforms (joints 0..level inclusive), for either
    value of the caller-supplied flag. -/
theorem get_transform_lt (level : Nat) (q : List ℝ) (dh : List DHParam)
    (flag : Bool) (hd : level < dh.length) (hq : level < q.length) :
    get_transform_to_base_from level q dh flag =
      some (chainProd (q.take (level + 1)) (dh.take (level + 1))) := by
  rw [get_transform_to_base_from]
  have hne : level ≠ dh.length := by omega
  simp only [hne, if_true, ne_eq, not_false_eq_true]
  rw [loopProd_eq q dh level (by omega) (by omega), List.get?_eq_get hq,
    List.get?_eq_get hd]
  simp [chainProd_take_succ q dh level hq hd]

/-- At level = len(DH_params) with the flag left false (every full-chain call
    in the program), the builder composes exactly the table's transforms. -/
theorem get_transform_full (q : List ℝ) (dh : List DHParam)
    (hq : dh.length ≤ q.length) :
    get_transform_to_base_from dh.length q dh false =
      some (chainProd (q.take dh.length) dh) := by
  rw [get_transform_to_base_from]
  simp only [ne_eq, not_true_eq_false, if_false, Bool.false_eq_true]
  rw [loopProd_eq q dh dh.length hq le_rfl]
  simp [List.take_length]

theorem get_transform_gt (level : Nat) (q : List ℝ) (dh : List DHParam)
    (flag : Bool) (h : dh.length < level) :
    get_transform_to_base_from level q dh flag = none := by
  rw [get_transform_to_base_from, loopProd_eq_none q dh level (Or.inr h)]
  rfl

/-- At level = len(DH_params) with the flag passed true, the inclusive block
    indexes one past the end of the angle list: the call fails. -/
theorem get_transform_at_len_true (q : List ℝ) (dh : List DHParam)
    (hlen : q.length = dh.length) :
    get_transform_to_base_from dh.length q dh true = none := by
  rw [get_transform_to_base_from]
  simp only [ne_eq, not_true_eq_false, if_false]
  rw [loopProd_eq q dh dh.length (by omega) le_rfl]
  have hq : q.get? dh.length = none := List.get?_eq_none.mpr (by omega)
  simp [hq]

/- ----------------------------------------------------------------------
   Helper lemmas: the Jacobian assembly in closed form.
   ---------------------------------------------------------------------- -/

theorem mulVec_e4 (M : Matrix (Fin 4) (Fin 4) ℝ) (j : Fin 4) :
    M.mulVec ![0, 0, 0, 1] j = M j 3 := by
  simp [Matrix.mulVec, Matrix.dotProduct, Fin.sum_univ_four]

theorem mulVec_ez (R : Matrix (Fin 3) (Fin 3) ℝ) (i : Fin 3) :
    R.mulVec ![0, 0, 1] i = R i 2 := by
  simp [Matrix.mulVec, Matrix.dotProduct, Fin.sum_univ_three]

theorem calc_Z_eq (l : Nat) (q : List ℝ) (dh : List DHParam)
    (base : Matrix (Fin 4) (Fin 4) ℝ) (hd : l < dh.length) (hq : l < q.length) :
    calc_Z l q dh base = some (amendedZ l q dh base) := by
  rw [calc_Z, get_transform_lt l q dh false hd hq]
  rfl

theorem calc_P_eq (l : Nat) (q : List ℝ) (n : Nat) (dh : List DHParam)
    (base : Matrix (Fin 4) (Fin 4) ℝ) (hd : l < dh.length)
    (hn : n = dh.length) (hq : dh.length ≤ q.length) :
    calc_P l q n dh base = some (amendedP l n q dh base) := by
  subst hn
  rw [calc_P, get_transform_full q dh hq,
    get_transform_lt l q dh false hd (by omega)]
  simp only [Option.some_bind, Option.map_some', Option.some.injEq]
  funext i
  rw [mulVec_e4, mulVec_e4]
  simp [amendedP, pos3, List.take_length]

theorem jacobianColumn_eq (i : Nat) (q : List ℝ) (n : Nat) (dh : List DHParam)
    (base : Matrix (Fin 4) (Fin 4) ℝ) (hd : i < dh.length)
    (hn : n = dh.length) (hq : dh.length ≤ q.length) :
    jacobianColumn i q n dh base =
      some (stack6 (cross (amendedZ i q dh base) (amendedP i n q dh base))
        (amendedZ i q dh base)) := by
  rw [jacobianColumn, calc_Z_eq i q dh base hd (by omega),
    calc_P_eq i q n dh base hd hn hq]
  rfl

theorem collectSome_map {α β : Type} (l : List α) (f : α → Option β) (g : α → β)
    (h : ∀ a ∈ l, f a = some (g a)) :
    collectSome (l.map f) = some (l.map g) := by
  induction l with
  | nil => rfl
  | cons x xt ih =>
    simp only [List.map_cons, collectSome]
    rw [h x (by simp), ih (fun a ha => h a (by simp [ha]))]
    rfl

theorem getD_map_range {β : Type} {n : Nat} (c : Fin n) (g : Nat → β) (d : β) :
    ((List.range n).map g).getD (c : Nat) d = g (c : Nat) := by
  have h : ((List.range n).map g).get? (c : Nat) = some (g (c : Nat)) := by
    rw [List.get?_eq_getElem?, List.getElem?_map]
    simp [List.getElem?_range c.isLt]
  simp [List.getD, h]

/-- Closed form of construct_jacobian: whenever n_joints matches the table
    length and the angle list is long enough, it succeeds and produces
    jacobianFormula. -/
theorem construct_jacobian_eq (n : Nat) (q : List ℝ) (dh : List DHParam)
    (base : Matrix (Fin 4) (Fin 4) ℝ) (hn : n = dh.length)
    (hq : dh.length ≤ q.length) :
    construct_jacobian n q dh base = some (jacobianFormula n q dh base) := by
  rw [construct_jacobian,
    collectSome_map (List.range n) _
      (fun i => stack6 (cross (amendedZ i q dh base) (amendedP i n q dh base))
        (amendedZ i q dh base))
      (fun a ha => jacobianColumn_eq a q n dh base
        (by have := List.mem_range.mp ha; omega) hn hq)]
  simp only [Option.map_some', Option.some.injEq]
  ext r c
  rw [jacobianFormula]
  simp only [Matrix.of_apply]
  rw [getD_map_range c
    (fun i => stack6 (cross (amendedZ i q dh base) (amendedP i n q dh base))
      (amendedZ i q dh base)) (fun _ => 0)]

/- ----------------------------------------------------------------------
   Helper lemmas: rotation blocks along the chain are orthogonal.
   ---------------------------------------------------------------------- -/

theorem dhMatrix_lastRow (th : ℝ) (p : DHParam) (k : Fin 4) :
    dhMatrix th p 3 k = if k = 3 then 1 else 0 := by
  fin_cases k <;> simp [dhMatrix]

theorem lastRow_mul (A B : Matrix (Fin 4) (Fin 4) ℝ)
    (hA : ∀ k, A 3 k = if k = 3 then 1 else 0)
    (hB : ∀ k, B 3 k = if k = 3 then 1 else 0) (k : Fin 4) :
    (A * B) 3 k = if k = 3 then 1 else 0 := by
  simp [Matrix.mul_apply, Fin.sum_univ_four, hA, hB]

theorem one_lastRow (k : Fin 4) :
    (1 : Matrix (Fin 4) (Fin 4) ℝ) 3 k = if k = 3 then 1 else 0 := by
  simp [Matrix.one_apply, eq_comm]

theorem chainProd_lastRow (q : List ℝ) (dh : List DHParam) (k : Fin 4) :
    chainProd q dh 3 k = if k = 3 then 1 else 0 := by
  induction q generalizing dh k with
  | nil => rw [chainProd_nil_left]; exact one_lastRow k
  | cons x xt ih =>
    cases dh with
    | nil => exact one_lastRow k
    | cons y yt =>
      rw [chainProd_cons]
      exact lastRow_mul _ _ (dhMatrix_lastRow x y) (fun k2 => ih yt k2) k

theorem castSucc_two : ((2 : Fin 3).castSucc : Fin 4) = 2 := rfl

theorem rotBlock_mul (A B : Matrix (Fin 4) (Fin 4) ℝ)
    (hB : ∀ k, B 3 k = if k = 3 then 1 else 0) :
    rotBlock (A * B) = rotBlock A * rotBlock B := by
  ext i j
  fin_cases i <;> fin_cases j <;>
    simp [rotBlock, Matrix.mul_apply, Fin.sum_univ_four, Fin.sum_univ_three,
      castSucc_two, hB 0, hB 1, hB 2]

theorem rotBlock_one : rotBlock 1 = (1 : Matrix (Fin 3) (Fin 3) ℝ) := by
  ext i j
  simp [rotBlock, Matrix.one_apply, Fin.castSucc_inj]

theorem ortho_mul (A B : Matrix (Fin 3) (Fin 3) ℝ)
    (hA : A.transpose * A = 1) (hB : B.transpose * B = 1) :
    (A * B).transpose * (A * B) = 1 := by
  rw [Matrix.transpose_mul, Matrix.mul_assoc, ← Matrix.mul_assoc A.transpose A B,
    hA, Matrix.one_mul, hB]

theorem rot3_ortho (c s ca sa : ℝ) (h1 : s ^ 2 + c ^ 2 = 1)
    (h2 : sa ^ 2 + ca ^ 2 = 1) :
    (!![c, -s, 0; s * ca, c * ca, -sa; s * sa, c * sa, ca] :
        Matrix (Fin 3) (Fin 3) ℝ).transpose *
      !![c, -s, 0; s * ca, c * ca, -sa; s * sa, c * sa, ca] = 1 := by
  have ht : (!![c, -s, 0; s * ca, c * ca, -sa; s * sa, c * sa, ca] :
      Matrix (Fin 3) (Fin 3) ℝ).transpose =
      !![c, s * ca, s * sa; -s, c * ca, c * sa; 0, -sa, ca] := by
    ext i j
    fin_cases i <;> fin_cases j <;> rfl
  rw [ht, Matrix.mul_fin_three, Matrix.one_fin_three]
  ext i j
  fin_cases i <;> fin_cases j <;> simp [Matrix.vecHead, Matrix.vecTail] <;>
    ring_nf <;>
    (first
      | rfl
      | linear_combination s ^ 2 * h2 + h1
      | linear_combination c * s * h2
      | linear_combination c ^ 2 * h2 + h1
      | linear_combination h2)

theorem rotBlock_dhMatrix (th : ℝ) (p : DHParam) :
    rotBlock (dhMatrix th p) =
      !![Real.cos th, -Real.sin th, 0;
         Real.sin th * Real.cos p.alpha, Real.cos th * Real.cos p.alpha,
           -Real.sin p.alpha;
         Real.sin th * Real.sin p.alpha, Real.cos th * Real.sin p.alpha,
           Real.cos p.alpha] := by
  ext i j
  fin_cases i <;> fin_cases j <;> rfl

theorem dhMatrix_rot_ortho (th : ℝ) (p : DHParam) :
    (rotBlock (dhMatrix th p)).transpose * rotBlock (dhMatrix th p) = 1 := by
  rw [rotBlock_dhMatrix]
  exact rot3_ortho (Real.cos th) (Real.sin th) (Real.cos p.alpha)
    (Real.sin p.alpha) (Real.sin_sq_add_cos_sq th)
    (Real.sin_sq_add_cos_sq p.alpha)

theorem chainProd_rot_ortho (q : List ℝ) (dh : List DHParam) :
    (rotBlock (chainProd q dh)).transpose * rotBlock (chainProd q dh) = 1 := by
  induction q generalizing dh with
  | nil => rw [chainProd_nil_left, rotBlock_one]; simp
  | cons x xt ih =>
    cases dh with
    | nil => rw [show chainProd (x :: xt) [] = 1 from rfl, rotBlock_one]; simp
    | cons y yt =>
      rw [chainProd_cons, rotBlock_mul _ _ (fun k => chainProd_lastRow xt yt k)]
      exact ortho_mul _ _ (dhMatrix_rot_ortho x y) (ih yt)

theorem col2_sq_sum (R : Matrix (Fin 3) (Fin 3) ℝ)
    (h : R.transpose * R = 1) :
    R 0 2 ^ 2 + R 1 2 ^ 2 + R 2 2 ^ 2 = 1 := by
  have h22 := congrFun (congrFun h 2) 2
  simpa [Matrix.mul_apply, Matrix.transpose_apply, Fin.sum_univ_three,
    Matrix.one_apply, sq] using h22

/-- The base transform built from a position and the identity quaternion
    [0,0,0,1] has the identity rotation block. -/
theorem rotBlock_base (x y z : ℝ) :
    rotBlock (get_matrix_from_pose [x, y, z, 0, 0, 0, 1]) = 1 := by
  ext i j
  fin_cases i <;> fin_cases j <;>
    simp [get_matrix_from_pose, rotBlock, Matrix.one_apply, List.getD,
      castSucc_two, Matrix.vecHead, Matrix.vecTail]

/-- The angular part the code produces for any joint is a column of an
    orthogonal matrix: its squared entries sum to one. -/
theorem amendedZ_sq_sum (i : Nat) (q : List ℝ) (dh : List DHParam)
    (base : Matrix (Fin 4) (Fin 4) ℝ) (hbase : rotBlock base = 1) :
    amendedZ i q dh base 0 ^ 2 + amendedZ i q dh base 1 ^ 2 +
      amendedZ i q dh base 2 ^ 2 = 1 := by
  have hsplit : rotBlock (base * chainProd (q.take (i+1)) (dh.take (i+1)))
      = rotBlock (chainProd (q.take (i+1)) (dh.take (i+1))) := by
    rw [rotBlock_mul base _ (fun k => chainProd_lastRow _ _ k), hbase,
      Matrix.one_mul]
  have hsum := col2_sq_sum _
    (chainProd_rot_ortho (q.take (i+1)) (dh.take (i+1)))
  simp only [amendedZ, mulVec_ez, hsplit]
  exact hsum

/-- Entries of the translation column are untouched by the end-effector
    correction: it writes only to the 3x3 rotation block. -/
theorem applyZAdjustment_col3 (A : Matrix (Fin 4) (Fin 4) ℝ) (i : Fin 4) :
    applyZAdjustment A i 3 = A i 3 := by
  simp [applyZAdjustment]
  exact fun h => absurd h.2 (Nat.lt_irrefl 3)

/-- The bottom row is also untouched by the correction. -/
theorem applyZAdjustment_row3 (A : Matrix (Fin 4) (Fin 4) ℝ) (j : Fin 4) :
    applyZAdjustment A 3 j = A 3 j := by
  simp [applyZAdjustment]
  exact fun h => absurd h.1 (Nat.lt_irrefl 3)

/-- On the rotation block, the correction is exactly a right multiplication by
    the constant adjustment matrix. -/
theorem applyZAdjustment_rotBlock (A : Matrix (Fin 4) (Fin 4) ℝ) :
    rotBlock (applyZAdjustment A) = rotBlock A * adjustmentMatrix := by
  ext i j
  fin_cases i <;> fin_cases j <;>
    simp [applyZAdjustment, rotBlock, castSucc_two]

/-- Closed form of your_fk on well-formed input: the guard passes, the chain
    transform and the Jacobian both succeed, and the result is the converted
    corrected pose paired with jacobianFormula (which never involves the
    correction). -/
theorem your_fk_eq (b : Fin 3 → ℝ) (dh : List DHParam) (q : List ℝ)
    (hd : dh.length = 7) (hq : q.length = 7) :
    your_fk b dh q = some
      (get_pose_from_matrix (applyZAdjustment
        (get_matrix_from_pose [b 0, b 1, b 2, 0, 0, 0, 1] *
          chainProd (q.take 7) dh)),
       jacobianFormula 7 q dh
         (get_matrix_from_pose [b 0, b 1, b 2, 0, 0, 0, 1])) := by
  have hT : get_transform_to_base_from 7 q dh false
      = some (chainProd (q.take 7) dh) := by
    have h := get_transform_full q dh (by omega)
    rwa [hd] at h
  have hJ := construct_jacobian_eq 7 q dh
    (get_matrix_from_pose [b 0, b 1, b 2, 0, 0, 0, 1]) hd.symm (by omega)
  simp only [your_fk, hd, hq, and_self, if_true, hT, hJ, Option.some_bind,
    Option.map_some']

/-- The angular rows (3,4,5) of any column of the produced Jacobian are the
    three entries of amendedZ. -/
theorem jacobianFormula_angular (n : Nat) (q : List ℝ) (dh : List DHParam)
    (base : Matrix (Fin 4) (Fin 4) ℝ) (c : Fin n) :
    jacobianFormula n q dh base 3 c = amendedZ (c : Nat) q dh base 0 ∧
    jacobianFormula n q dh base 4 c = amendedZ (c : Nat) q dh base 1 ∧
    jacobianFormula n q dh base 5 c = amendedZ (c : Nat) q dh base 2 := by
  refine ⟨?_, ?_, ?_⟩ <;>
    simp [jacobianFormula, stack6, show ((3 : Fin 6) : Nat) = 3 from rfl,
      show ((4 : Fin 6) : Nat) = 4 from rfl,
      show ((5 : Fin 6) : Nat) = 5 from rfl]

/- ----------------------------------------------------------------------
   Claim theorems.
   ---------------------------------------------------------------------- -/

/-- C2, counterexample: the transform builder at level 0 does NOT return the
    identity for every angle vector and DH table; for the one-joint table
    with a = 1 it returns the joint-0 transform, whose translation entry
    (0,3) is 1. -/
theorem C2_counterexample :
    get_transform_to_base_from 0 [0] [⟨1, 0, 0⟩] false ≠
      some (1 : Matrix (Fin 4) (Fin 4) ℝ) := by
  rw [get_transform_lt 0 [0] [⟨1, 0, 0⟩] false (by simp) (by simp)]
  intro hEq
  have h3 := congrFun (congrFun (Option.some.inj hEq) 0) 3
  simp [chainProd_cons, chainProd_nil_left, Matrix.mul_one, dhMatrix,
    Matrix.one_apply] at h3

/-- C2 amended: get_transform_to_base_from(0, q, dh) returns the single
    joint-0 per-joint transform whenever the DH table is nonempty (because
    level 0 differs from the table length, the inclusive-range flag is forced
    on and one transform is composed); it returns the identity only for the
    empty table with the flag left false. -/
theorem C2_amended (th : ℝ) (ths : List ℝ) (p : DHParam) (ps : List DHParam)
    (flag : Bool) (q : List ℝ) :
    get_transform_to_base_from 0 (th :: ths) (p :: ps) flag =
      some (dhMatrix th p) ∧
    get_transform_to_base_from 0 q [] false = some 1 := by
  constructor
  · rw [get_transform_lt 0 (th :: ths) (p :: ps) flag (by simp) (by simp)]
    simp [chainProd_cons, chainProd_nil_left, Matrix.mul_one]
  · simpa using get_transform_full q [] (by simp)

/-- C3: the full-chain call (level = len(dh), flag defaulted to false)
    composes exactly the N per-joint matrices T_0 * ... * T_(N-1) starting
    from the identity, and the result depends only on the first N entries of
    the joint-angle vector. -/
theorem C3_full_chain (q : List ℝ) (dh : List DHParam)
    (h : dh.length ≤ q.length) :
    get_transform_to_base_from dh.length q dh false =
      some (chainProd (q.take dh.length) dh) ∧
    ∀ q2 : List ℝ, dh.length ≤ q2.length →
      q2.take dh.length = q.take dh.length →
      get_transform_to_base_from dh.length q2 dh false =
        get_transform_to_base_from dh.length q dh false := by
  refine ⟨get_transform_full q dh h, fun q2 h2 htake => ?_⟩
  rw [get_transform_full q dh h, get_transform_full q2 dh h2, htake]

theorem C3_full_chain_witness :
    get_transform_to_base_from ([(⟨1, 2, 3⟩ : DHParam)].length) [(0 : ℝ)]
        [(⟨1, 2, 3⟩ : DHParam)] false =
      some (chainProd ([(0 : ℝ)].take ([(⟨1, 2, 3⟩ : DHParam)].length))
        [(⟨1, 2, 3⟩ : DHParam)]) :=
  (C3_full_chain [(0 : ℝ)] [(⟨1, 2, 3⟩ : DHParam)] (by decide)).1

/-- C8: for every level strictly below the table length the builder composes
    exactly level + 1 per-joint transforms (joints 0 through level inclusive)
    whatever Boolean the caller passes, since the flag is overwritten; and the
    result really does depend on the angle at index level, witnessed by two
    angle vectors differing only at that index with different outputs. -/
theorem C8_partial_levels (q : List ℝ) (dh : List DHParam) (level : Nat)
    (hd : level < dh.length) (hq : level < q.length) :
    (∀ flag : Bool, get_transform_to_base_from level q dh flag =
      some (chainProd (q.take (level + 1)) (dh.take (level + 1)))) ∧
    get_transform_to_base_from 0 [0, 9] [⟨0, 0, 0⟩, ⟨0, 0, 0⟩] false ≠
      get_transform_to_base_from 0 [Real.pi, 9] [⟨0, 0, 0⟩, ⟨0, 0, 0⟩] false := by
  constructor
  · exact fun flag => get_transform_lt level q dh flag hd hq
  · rw [get_transform_lt 0 [0, 9] [⟨0, 0, 0⟩, ⟨0, 0, 0⟩] false (by simp) (by simp),
      get_transform_lt 0 [Real.pi, 9] [⟨0, 0, 0⟩, ⟨0, 0, 0⟩] false (by simp)
        (by simp)]
    intro hEq
    have h3 := congrFun (congrFun (Option.some.inj hEq) 0) 0
    simp [chainProd_cons, chainProd_nil_left, Matrix.mul_one, dhMatrix] at h3
    norm_num [Real.cos_pi] at h3

theorem C8_partial_levels_witness :
    get_transform_to_base_from 0 [(5 : ℝ)] [(⟨0, 1, 2⟩ : DHParam)] true =
      some (chainProd ([(5 : ℝ)].take (0 + 1))
        ([(⟨0, 1, 2⟩ : DHParam)].take (0 + 1))) :=
  (C8_partial_levels [(5 : ℝ)] [(⟨0, 1, 2⟩ : DHParam)] 0 (by decide)
    (by decide)).1 true

/-- C9: with matching list lengths, every list index taken inside
    get_transform_to_base_from is in bounds (the Option pipeline succeeds)
    exactly when level < len(DH_params), or level = len(DH_params) with the
    flag left false; the Jacobian helpers calc_Z and calc_P at levels below
    the table length and the full-chain call with the defaulted flag all
    satisfy this, while level = len(DH_params) with the flag forced true
    indexes out of range and fails. -/
theorem C9_index_safety (q : List ℝ) (dh : List DHParam)
    (hlen : q.length = dh.length) :
    (∀ (level : Nat) (flag : Bool),
      (get_transform_to_base_from level q dh flag).isSome ↔
        (level < dh.length ∨ (level = dh.length ∧ flag = false))) ∧
    (∀ base : Matrix (Fin 4) (Fin 4) ℝ, ∀ l : Nat, l < dh.length →
      (calc_Z l q dh base).isSome ∧ (calc_P l q dh.length dh base).isSome) ∧
    (get_transform_to_base_from dh.length q dh false).isSome ∧
    get_transform_to_base_from dh.length q dh true = none := by
  refine ⟨fun level flag => ?_, fun base l hl => ?_, ?_, ?_⟩
  · constructor
    · intro hs
      by_contra hcon
      push_neg at hcon
      rcases Nat.lt_trichotomy level dh.length with hlt | heq | hgt
      · omega
      · have hflag : flag = true := by
          cases flag
          · exact absurd rfl (hcon.2 heq)
          · rfl
        subst heq hflag
        rw [get_transform_at_len_true q dh hlen] at hs
        simp at hs
      · rw [get_transform_gt level q dh flag hgt] at hs
        simp at hs
    · intro hcase
      rcases hcase with hlt | ⟨heq, hflag⟩
      · rw [get_transform_lt level q dh flag hlt (by omega)]
        rfl
      · subst heq hflag
        rw [get_transform_full q dh (by omega)]
        rfl
  · constructor
    · rw [calc_Z_eq l q dh base hl (by omega)]; rfl
    · rw [calc_P_eq l q dh.length dh base hl rfl (by omega)]; rfl
  · rw [get_transform_full q dh (by omega)]; rfl
  · exact get_transform_at_len_true q dh hlen

theorem C9_index_safety_witness :
    (get_transform_to_base_from 1 [(0 : ℝ)] [(⟨0, 0, 0⟩ : DHParam)]
      true).isSome ↔
      (1 < ([(⟨0, 0, 0⟩ : DHParam)] : List DHParam).length ∨
        (1 = ([(⟨0, 0, 0⟩ : DHParam)] : List DHParam).length ∧ true = false)) :=
  (C9_index_safety [(0 : ℝ)] [(⟨0, 0, 0⟩ : DHParam)] rfl).1 1 true

/-- C1, counterexample: the produced Jacobian does not match the spec's
    description with exclusive transforms (joints 0..i-1 only).  For a single
    joint with twist pi/2, zero angle and identity base pose, the angular part
    of column 0 produced by the code is the z column of the joint-0 rotation,
    (0,-1,0), while the spec's exclusive formula gives (0,0,1): entry (4,0)
    differs (-1 versus 0). -/
theorem C1_counterexample :
    construct_jacobian 1 [0] [⟨0, 0, Real.pi / 2⟩] 1 ≠
      some (Matrix.of fun r _ =>
        specJacobianColumn 0 1 [0] [⟨0, 0, Real.pi / 2⟩] 1 r) := by
  rw [construct_jacobian_eq 1 [0] [⟨0, 0, Real.pi / 2⟩] 1 (by simp) (by simp)]
  intro hEq
  have h3 := congrFun (congrFun (Option.some.inj hEq) 4) 0
  simp [jacobianFormula, specJacobianColumn, stack6, amendedZ, specZ,
    mulVec_ez, chainProd_cons, chainProd_nil_left, Matrix.mul_one,
    Matrix.one_mul, rotBlock_one, rotBlock, dhMatrix, castSucc_two,
    Matrix.one_apply, show ((4 : Fin 6) : Nat) = 4 from rfl] at h3

/-- C1 amended: for every joint index i, column i of the Jacobian returned by
    construct_jacobian is [Z_i x P_i ; Z_i] where Z_i is the z column of the
    rotation block of basePose times the chain of joints 0..i INCLUSIVE
    (i + 1 per-joint transforms, because the builder's inclusive-range flag is
    forced on below the table length), and P_i subtracts the position of that
    same inclusive frame from the end-effector position (which composes
    exactly the n = len(dhTable) per-joint transforms). -/
theorem C1_amended_jacobian (n : Nat) (q : List ℝ) (dh : List DHParam)
    (base : Matrix (Fin 4) (Fin 4) ℝ) (hn : n = dh.length)
    (hq : dh.length ≤ q.length) :
    ∃ J, construct_jacobian n q dh base = some J ∧
      ∀ (i : Fin n) (r : Fin 6), J r i =
        stack6 (cross (amendedZ (i : Nat) q dh base)
          (amendedP (i : Nat) n q dh base)) (amendedZ (i : Nat) q dh base) r :=
  ⟨jacobianFormula n q dh base, construct_jacobian_eq n q dh base hn hq,
    fun _ _ => rfl⟩

theorem C1_amended_jacobian_witness :
    ∃ J, construct_jacobian 1 [(0 : ℝ)] [(⟨0, 0, 0⟩ : DHParam)] 1 = some J ∧
      ∀ (i : Fin 1) (r : Fin 6), J r i =
        stack6 (cross (amendedZ (i : Nat) [(0 : ℝ)] [(⟨0, 0, 0⟩ : DHParam)] 1)
          (amendedP (i : Nat) 1 [(0 : ℝ)] [(⟨0, 0, 0⟩ : DHParam)] 1))
          (amendedZ (i : Nat) [(0 : ℝ)] [(⟨0, 0, 0⟩ : DHParam)] 1) r :=
  C1_amended_jacobian 1 [(0 : ℝ)] [(⟨0, 0, 0⟩ : DHParam)] 1 (by decide)
    (by decide)

/-- C4: your_fk validates its input lengths synchronously before any
    computation: on any dimension mismatch it produces no result at all
    (none), and on any well-formed 7-joint input it produces a complete
    (pose, Jacobian) pair. -/
theorem C4_input_validation (b : Fin 3 → ℝ) (dh : List DHParam) (q : List ℝ) :
    (¬(dh.length = 7 ∧ q.length = 7) → your_fk b dh q = none) ∧
    (dh.length = 7 → q.length = 7 → (your_fk b dh q).isSome) := by
  constructor
  · intro h
    simp only [your_fk]
    rw [if_neg h]
  · intro h1 h2
    rw [your_fk_eq b dh q h1 h2]
    rfl

theorem C4_input_validation_witness :
    your_fk (fun _ => (0 : ℝ)) [] [] = none :=
  (C4_input_validation (fun _ => (0 : ℝ)) [] []).1 (by decide)

/-- C5: the fixed -45 degree correction writes only the 3x3 rotation block
    (every translation-column entry of the corrected transform equals the
    uncorrected one, and on the rotation block it is exactly a right
    multiplication by the constant matrix), and the Jacobian your_fk returns
    is computed from the uncorrected chain transforms: it equals the output
    of construct_jacobian on the raw chain, with no correction anywhere in
    its computation. -/
theorem C5_correction_scope (b : Fin 3 → ℝ) (dh : List DHParam) (q : List ℝ)
    (hd : dh.length = 7) (hq : q.length = 7) :
    (∀ (A : Matrix (Fin 4) (Fin 4) ℝ) (i : Fin 4),
      applyZAdjustment A i 3 = A i 3) ∧
    (∀ A : Matrix (Fin 4) (Fin 4) ℝ,
      rotBlock (applyZAdjustment A) = rotBlock A * adjustmentMatrix) ∧
    ∃ pose J, your_fk b dh q = some (pose, J) ∧
      construct_jacobian 7 q dh
        (get_matrix_from_pose [b 0, b 1, b 2, 0, 0, 0, 1]) = some J ∧
      pose = get_pose_from_matrix (applyZAdjustment
        (get_matrix_from_pose [b 0, b 1, b 2, 0, 0, 0, 1] *
          chainProd (q.take 7) dh)) :=
  ⟨applyZAdjustment_col3, applyZAdjustment_rotBlock,
    _, _, your_fk_eq b dh q hd hq,
    construct_jacobian_eq 7 q dh _ hd.symm (by omega), rfl⟩

theorem C5_correction_scope_witness :
    applyZAdjustment (1 : Matrix (Fin 4) (Fin 4) ℝ) 2 3 =
      (1 : Matrix (Fin 4) (Fin 4) ℝ) 2 3 :=
  (C5_correction_scope (fun _ => (0 : ℝ))
    [⟨0, 0, 0⟩, ⟨0, 0, 0⟩, ⟨0, 0, 0⟩, ⟨0, 0, 0⟩, ⟨0, 0, 0⟩, ⟨0, 0, 0⟩, ⟨0, 0, 0⟩]
    [0, 0, 0, 0, 0, 0, 0] rfl rfl).1 1 2

/-- C6: for every valid 7-joint input, every column of the Jacobian returned
    by your_fk has an angular block (rows 3-5) of Euclidean norm exactly one:
    it is a column of a product of rotation matrices applied to the unit z
    vector. -/
theorem C6_angular_unit_norm (b : Fin 3 → ℝ) (dh : List DHParam) (q : List ℝ)
    (hd : dh.length = 7) (hq : q.length = 7) :
    ∃ pose J, your_fk b dh q = some (pose, J) ∧
      ∀ i : Fin 7,
        Real.sqrt (J 3 i ^ 2 + J 4 i ^ 2 + J 5 i ^ 2) = 1 := by
  refine ⟨_, _, your_fk_eq b dh q hd hq, fun i => ?_⟩
  obtain ⟨h3, h4, h5⟩ := jacobianFormula_angular 7 q dh
    (get_matrix_from_pose [b 0, b 1, b 2, 0, 0, 0, 1]) i
  rw [h3, h4, h5,
    amendedZ_sq_sum (i : Nat) q dh _ (rotBlock_base (b 0) (b 1) (b 2)),
    Real.sqrt_one]

theorem C6_angular_unit_norm_witness :
    ∃ pose J, your_fk (fun _ => (0 : ℝ))
      [⟨0, 0, 0⟩, ⟨0, 0, 0⟩, ⟨0, 0, 0⟩, ⟨0, 0, 0⟩, ⟨0, 0, 0⟩, ⟨0, 0, 0⟩, ⟨0, 0, 0⟩]
      [0, 0, 0, 0, 0, 0, 0] = some (pose, J) ∧
      ∀ i : Fin 7,
        Real.sqrt (J 3 i ^ 2 + J 4 i ^ 2 + J 5 i ^ 2) = 1 :=
  C6_angular_unit_norm (fun _ => (0 : ℝ))
    [⟨0, 0, 0⟩, ⟨0, 0, 0⟩, ⟨0, 0, 0⟩, ⟨0, 0, 0⟩, ⟨0, 0, 0⟩, ⟨0, 0, 0⟩, ⟨0, 0, 0⟩]
    [0, 0, 0, 0, 0, 0, 0] rfl rfl

/-- C7: your_fk is a pure, deterministic function of the base position, the
    DH table and the joint angles: equal inputs give equal outputs, and the
    embedding reads no other state. -/
theorem C7_determinism (b1 b2 : Fin 3 → ℝ) (dh1 dh2 : List DHParam)
    (q1 q2 : List ℝ) (hb : b1 = b2) (hdh : dh1 = dh2) (hq : q1 = q2) :
    your_fk b1 dh1 q1 = your_fk b2 dh2 q2 := by
  rw [hb, hdh, hq]

theorem C7_determinism_witness :
    your_fk (fun _ => (0 : ℝ)) [] [] = your_fk (fun _ => (0 : ℝ)) [] [] :=
  C7_determinism (fun _ => (0 : ℝ)) (fun _ => (0 : ℝ)) [] [] [] [] rfl rfl rfl

/- ----------------------------------------------------------------------
   Scoring bounds (C10).
   ---------------------------------------------------------------------- -/

theorem penaltyOf_nonneg (n m : Nat) : 0 ≤ penaltyOf n m := by
  rw [penaltyOf, TASK1_SCORE_MAX, JACOBIAN_SCORE_MAX, FK_SCORE_MAX]
  positivity

theorem foldl_sub_penalty_le (sel : Bool × Bool → Bool) (pen : ℝ)
    (hpen : 0 ≤ pen) (cases : List (Bool × Bool)) (init : ℝ) :
    cases.foldl (fun s c => if sel c then s - pen else s) init ≤ init := by
  induction cases generalizing init with
  | nil => simp
  | cons c ct ih =>
    simp only [List.foldl_cons]
    cases hc : sel c
    · simpa [hc] using ih init
    · simp only [hc, if_true]
      calc ct.foldl (fun s c => if sel c then s - pen else s) (init - pen)
          ≤ init - pen := ih (init - pen)
        _ ≤ init := by linarith

theorem clamp0_nonneg (x : ℝ) : 0 ≤ clamp0 x := by
  rw [clamp0]; split <;> linarith

theorem clamp0_le (x m : ℝ) (hx : x ≤ m) (hm : 0 ≤ m) : clamp0 x ≤ m := by
  rw [clamp0]; split <;> linarith

theorem fileFkScore_bounds (n : Nat) (cases : List (Bool × Bool)) :
    0 ≤ fileFkScore n cases ∧ fileFkScore n cases ≤ FK_SCORE_MAX / n := by
  have hm : (0 : ℝ) ≤ FK_SCORE_MAX / n := by
    rw [FK_SCORE_MAX]; positivity
  exact ⟨clamp0_nonneg _, clamp0_le _ _
    (foldl_sub_penalty_le _ _ (penaltyOf_nonneg n cases.length) cases _) hm⟩

theorem fileJacScore_bounds (n : Nat) (cases : List (Bool × Bool)) :
    0 ≤ fileJacScore n cases ∧ fileJacScore n cases ≤ JACOBIAN_SCORE_MAX / n := by
  have hm : (0 : ℝ) ≤ JACOBIAN_SCORE_MAX / n := by
    rw [JACOBIAN_SCORE_MAX]; positivity
  exact ⟨clamp0_nonneg _, clamp0_le _ _
    (foldl_sub_penalty_le _ _ (penaltyOf_nonneg n cases.length) cases _) hm⟩

theorem sum_map_le_of_le (files : List (List (Bool × Bool)))
    (f : List (Bool × Bool) → ℝ) (M : ℝ) (hM : 0 ≤ M)
    (hf : ∀ c ∈ files, f c ≤ M / files.length) :
    (files.map f).sum ≤ M := by
  rcases Nat.eq_zero_or_pos files.length with h0 | hpos
  · have hnil : files = [] := List.length_eq_zero.mp h0
    subst hnil
    simpa using hM
  · have hle := List.sum_le_card_nsmul (files.map f) (M / files.length)
      (by
        intro x hx
        obtain ⟨c, hc, rfl⟩ := List.mem_map.mp hx
        exact hf c hc)
    rw [List.length_map] at hle
    have hne : (files.length : ℝ) ≠ 0 := Nat.cast_ne_zero.mpr (by omega)
    calc (files.map f).sum ≤ files.length • (M / files.length) := hle
      _ = files.length * (M / files.length) := nsmul_eq_mul _ _
      _ = M := by field_simp

/-- C10: every per-file score reported by the scorer is clamped below at zero
    and can never exceed its per-file maximum share, and the reported total
    score always lies between 0 and FK_SCORE_MAX + JACOBIAN_SCORE_MAX = 20. -/
theorem C10_score_bounds (files : List (List (Bool × Bool))) :
    (∀ cases ∈ files,
      (0 ≤ fileFkScore files.length cases ∧
        fileFkScore files.length cases ≤ FK_SCORE_MAX / files.length) ∧
      (0 ≤ fileJacScore files.length cases ∧
        fileJacScore files.length cases ≤ JACOBIAN_SCORE_MAX / files.length)) ∧
    0 ≤ score_fk_total files ∧
    score_fk_total files ≤ FK_SCORE_MAX + JACOBIAN_SCORE_MAX := by
  refine ⟨fun cases _ =>
    ⟨fileFkScore_bounds files.length cases,
      fileJacScore_bounds files.length cases⟩, ?_, ?_⟩
  · rw [score_fk_total]
    have h1 : 0 ≤ (files.map (fileFkScore files.length)).sum :=
      List.sum_nonneg (by
        intro x hx
        obtain ⟨c, _, rfl⟩ := List.mem_map.mp hx
        exact (fileFkScore_bounds files.length c).1)
    have h2 : 0 ≤ (files.map (fileJacScore files.length)).sum :=
      List.sum_nonneg (by
        intro x hx
        obtain ⟨c, _, rfl⟩ := List.mem_map.mp hx
        exact (fileJacScore_bounds files.length c).1)
    linarith
  · rw [score_fk_total]
    have h1 : (files.map (fileFkScore files.length)).sum ≤ FK_SCORE_MAX :=
      sum_map_le_of_le files _ _ (by rw [FK_SCORE_MAX]; norm_num)
        (fun c _ => (fileFkScore_bounds files.length c).2)
    have h2 : (files.map (fileJacScore files.length)).sum ≤ JACOBIAN_SCORE_MAX :=
      sum_map_le_of_le files _ _ (by rw [JACOBIAN_SCORE_MAX]; norm_num)
        (fun c _ => (fileJacScore_bounds files.length c).2)
    linarith

theorem C10_score_bounds_witness :
    0 ≤ fileFkScore ([[(true, false)]] : List (List (Bool × Bool))).length
        [(true, false)] ∧
      fileFkScore ([[(true, false)]] : List (List (Bool × Bool))).length
        [(true, false)] ≤
        FK_SCORE_MAX / ([[(true, false)]] : List (List (Bool × Bool))).length :=
  ((C10_score_bounds [[(true, false)]]).1 [(true, false)] (by simp)).1
